import Mathlib

/-!
Verification of the `op` repository's `workerpool` subsystem and the
ring-buffer `deque` that backs its waiting queue.

The Go sources embedded here:
* `deque/deque.go` — a generic double-ended queue over a ring buffer
  (`buffer`, `headIdx`, `tailIdx`, `size`, `baseCap`), restricted to the
  backlog contract used by the pool: `PushBack`, `Front`, `PopFront`, `Size`,
  together with the internal `ensureCapacity`, `resize` and `shrinkIfNeeded`.
* `workerpool/workerpool.go` — the pool façade (`New`, `Submit`, `SubmitWait`,
  `Pause`, `Stop`, `StopWait`, `WaitingQueueSize`) and the arbiter
  (`dispatch`, `handleTask`, `killIdleWorker`, `processWaitingQueue`,
  `runQueuedTasks`, `worker`), modelled as an executable transition system:
  the nondeterminism of Go's `select` statements is resolved by an oracle
  event stream, and every value sent on `workerChan` (a task, or the `nil`
  shutdown sentinel) is recorded in a dispatch log.

Machine integers (`int`, `int32`) are modelled as `Int`; the one narrowing
conversion in the source (`int32(size)` stored in the `waitingCount` atomic)
is modelled exactly by a balanced modulus at width 32.
-/

namespace OpDeque

/-- `minCapacity` from deque.go: the minimum ring capacity, a power of two. -/
def minCapacity : Nat := 16

/-- The `Deque` struct of deque.go.  `buffer` is the Go slice (Go's `nil`
slice is the empty list), indices and sizes are the Go `int` fields; they are
never negative under the operations embedded here, so they are carried as
`Nat`. -/
structure Deque (T : Type) where
  buffer  : List T
  headIdx : Nat
  tailIdx : Nat
  size    : Nat
  baseCap : Nat
  deriving Repr

variable {T : Type} [Inhabited T]

/-- The Go zero value of `Deque[T]` (the pool's `waitingQueue` field is used
without explicit initialization). -/
def Deque.zero : Deque T := ⟨[], 0, 0, 0, 0⟩

/-- `New` from deque.go. -/
def Deque.new : Deque T := ⟨[], 0, 0, 0, minCapacity⟩

/-- `Size` from deque.go (the receiver is a struct field in the pool, never
nil, so the nil-receiver guard returns the same value as `d.size`). -/
def Deque.Size (d : Deque T) : Nat := d.size

/-- `nextIndex` from deque.go: `(i + 1) & (len(d.buffer) - 1)`. -/
def Deque.nextIndex (d : Deque T) (i : Nat) : Nat :=
  (i + 1) &&& (d.buffer.length - 1)

/-- Go's built-in `copy(dst, src)`: overwrites the first
`min (length dst) (length src)` positions of `dst` with `src`, leaving the
rest of `dst` unchanged. -/
def goCopy (dst src : List T) : List T :=
  src.take (min dst.length src.length) ++ dst.drop (min dst.length src.length)

/-- The buffer built by `resize` in deque.go: a fresh zeroed slice of
`newSize` slots whose front receives the live contents (one `copy` when the
live region is contiguous, two when it wraps around the end). -/
def Deque.resizedBuffer (d : Deque T) (newSize : Nat) : List T :=
  if d.size > 0 then
    if d.tailIdx > d.headIdx then
      goCopy (List.replicate newSize default)
        ((d.buffer.drop d.headIdx).take (d.tailIdx - d.headIdx))
    else
      let src1 := d.buffer.drop d.headIdx
      let n := min (List.replicate (α := T) newSize default).length src1.length
      let nb1 := goCopy (List.replicate newSize default) src1
      nb1.take n ++ goCopy (nb1.drop n) (d.buffer.take d.tailIdx)
  else List.replicate newSize default

/-- `resize` from deque.go: install the rebuilt buffer and reset
`headIdx`/`tailIdx` to the contiguous layout. -/
def Deque.resize (d : Deque T) (newSize : Nat) : Deque T :=
  { d with buffer := d.resizedBuffer newSize, headIdx := 0, tailIdx := d.size }

/-- `ensureCapacity` from deque.go: allocate `baseCap` slots on first use
(defaulting `baseCap` to `minCapacity`), or double the buffer when full. -/
def Deque.ensureCapacity (d : Deque T) : Deque T :=
  if d.buffer.length = 0 then
    { d with baseCap := if d.baseCap = 0 then minCapacity else d.baseCap,
             buffer := List.replicate
               (if d.baseCap = 0 then minCapacity else d.baseCap) default }
  else if d.size = d.buffer.length then
    d.resize (d.size <<< 1)
  else d

/-- `shrinkIfNeeded` from deque.go: when more than three quarters of a
buffer larger than `baseCap` is unused, shrink to `max (2*size) baseCap`. -/
def Deque.shrinkIfNeeded (d : Deque T) : Deque T :=
  if d.baseCap < d.buffer.length ∧ d.size <<< 2 ≤ d.buffer.length then
    d.resize (if d.size <<< 1 < d.baseCap then d.baseCap else d.size <<< 1)
  else d

/-- `PushBack` from deque.go: ensure capacity, write the element at
`tailIdx`, advance `tailIdx` and bump `size` (the buffer write does not
change the length, so computing `nextIndex` before or after it agrees with
the source's ordering). -/
def Deque.PushBack (d : Deque T) (elem : T) : Deque T :=
  { d.ensureCapacity with
      buffer := d.ensureCapacity.buffer.set d.ensureCapacity.tailIdx elem,
      tailIdx := d.ensureCapacity.nextIndex d.ensureCapacity.tailIdx,
      size := d.ensureCapacity.size + 1 }

/-- `Front` from deque.go; the empty-queue panic is modelled as `none`. -/
def Deque.Front (d : Deque T) : Option T :=
  if d.size = 0 then none
  else some (d.buffer.getD d.headIdx default)

/-- `PopFront` from deque.go; the empty-queue panic is modelled as `none`.
The popped slot is zeroed (`var zero T`) exactly as in the source. -/
def Deque.PopFront (d : Deque T) : Option (T × Deque T) :=
  if d.size = 0 then none
  else
    some (d.buffer.getD d.headIdx default,
      Deque.shrinkIfNeeded
        { d with buffer := d.buffer.set d.headIdx default,
                 headIdx := d.nextIndex d.headIdx,
                 size := d.size - 1 })

/-- The sequence abstraction of the ring buffer: the `size` live elements
starting at `headIdx`, wrapping at the end of `buffer`. -/
def Deque.toList (d : Deque T) : List T :=
  if d.headIdx + d.size ≤ d.buffer.length then
    (d.buffer.drop d.headIdx).take d.size
  else
    d.buffer.drop d.headIdx ++ d.buffer.take (d.headIdx + d.size - d.buffer.length)

/-- Well-formedness of a deque whose buffer has been allocated: the capacity
is a power of two of at least `minCapacity`, `baseCap` is `minCapacity`,
the head index is in range, the tail index is the head index advanced by
`size` modulo the capacity, and the buffer is never more than
four-times-oversized unless it is at most `2 * minCapacity` (the inductive
strengthening that keeps every shrink target a power of two). -/
structure Deque.WfBuf (d : Deque T) : Prop where
  pow2 : ∃ k, d.buffer.length = 2 ^ k
  cap_min : minCapacity ≤ d.buffer.length
  base : d.baseCap = minCapacity
  size_le : d.size ≤ d.buffer.length
  head_lt : d.headIdx < d.buffer.length
  tail_eq : d.tailIdx = (d.headIdx + d.size) % d.buffer.length
  shrink_inv : d.buffer.length ≤ 2 * minCapacity ∨ d.buffer.length < 4 * d.size

/-- Reachable-state well-formedness: either the untouched zero/new state
(no buffer yet) or an allocated well-formed ring. -/
def Deque.Wf (d : Deque T) : Prop :=
  (d.buffer = [] ∧ d.size = 0 ∧ d.headIdx = 0 ∧ d.tailIdx = 0 ∧
    (d.baseCap = 0 ∨ d.baseCap = minCapacity)) ∨ d.WfBuf

theorem goCopy_length (dst src : List T) : (goCopy dst src).length = dst.length := by
  simp only [goCopy, List.length_append, List.length_take, List.length_drop]
  omega

theorem goCopy_of_le (dst src : List T) (h : src.length ≤ dst.length) :
    goCopy dst src = src ++ dst.drop src.length := by
  simp [goCopy, min_eq_right h, List.take_length]

/-- Splitting a modulus that is known to be in the first two periods. -/
theorem mod_two_periods {a n : Nat} (h : a < 2 * n) :
    a % n = if a < n then a else a - n := by
  split
  · exact Nat.mod_eq_of_lt ‹_›
  · rw [Nat.mod_eq_sub_mod (by omega)]
    exact Nat.mod_eq_of_lt (by omega)

theorem Deque.resize_spec (d : Deque T) (newSize : Nat)
    (hsz : d.size ≤ d.buffer.length) (hhd : d.headIdx < d.buffer.length)
    (htl : d.tailIdx = (d.headIdx + d.size) % d.buffer.length)
    (hns : d.size ≤ newSize) :
    (d.resizedBuffer newSize).length = newSize ∧
    (d.resizedBuffer newSize).take d.size = d.toList := by
  have hlen : 0 < d.buffer.length := Nat.lt_of_le_of_lt (Nat.zero_le _) hhd
  have hmod : d.tailIdx =
      if d.headIdx + d.size < d.buffer.length then d.headIdx + d.size
      else d.headIdx + d.size - d.buffer.length := by
    rw [htl, mod_two_periods (by omega)]
  by_cases h0 : d.size > 0
  · by_cases hw : d.headIdx + d.size < d.buffer.length
    · -- live region is contiguous: the `tailIdx > headIdx` branch fires
      simp only [hw, if_true] at hmod
      have hgt : d.tailIdx > d.headIdx := by omega
      have hsub : d.tailIdx - d.headIdx = d.size := by omega
      have hsrc : ((d.buffer.drop d.headIdx).take (d.tailIdx - d.headIdx)).length
          = d.size := by
        simp only [List.length_take, List.length_drop]
        omega
      rw [Deque.resizedBuffer, if_pos h0, if_pos hgt,
        goCopy_of_le _ _ (by rw [hsrc]; simpa using hns)]
      constructor
      · simp only [List.length_append, List.length_take, List.length_drop,
          List.length_replicate]
        omega
      · rw [List.take_append_eq_append_take, hsrc]
        simp only [Nat.sub_self, List.take_zero, List.append_nil, hsub,
          List.take_take, Nat.min_self]
        rw [Deque.toList, if_pos (Nat.le_of_lt hw)]
    · -- live region wraps: the two-copy branch fires
      simp only [hw, if_false] at hmod
      have hle : ¬ d.tailIdx > d.headIdx := by omega
      have hsrc1 : (d.buffer.drop d.headIdx).length = d.buffer.length - d.headIdx := by
        simp
      have hn : min (List.replicate (α := T) newSize default).length
          (d.buffer.drop d.headIdx).length = d.buffer.length - d.headIdx := by
        simp only [List.length_replicate, hsrc1]
        omega
      have hcop1 : goCopy (List.replicate newSize default) (d.buffer.drop d.headIdx)
          = d.buffer.drop d.headIdx ++
            List.replicate (newSize - (d.buffer.length - d.headIdx)) default := by
        rw [goCopy_of_le _ _ (by simp only [List.length_replicate, hsrc1]; omega),
          List.drop_replicate, hsrc1]
      have htv : d.tailIdx = d.headIdx + d.size - d.buffer.length := hmod
      have htlt : d.tailIdx ≤ d.headIdx := by omega
      have hsrc2 : (d.buffer.take d.tailIdx).length = d.tailIdx := by
        simp only [List.length_take]
        omega
      have hcop2 : goCopy
            (List.replicate (newSize - (d.buffer.length - d.headIdx)) default)
            (d.buffer.take d.tailIdx)
          = d.buffer.take d.tailIdx ++
            List.replicate (newSize - (d.buffer.length - d.headIdx) - d.tailIdx)
              default := by
        rw [goCopy_of_le _ _ (by simp only [List.length_replicate, hsrc2]; omega),
          List.drop_replicate, hsrc2]
      rw [Deque.resizedBuffer, if_pos h0, if_neg hle]
      simp only [hn, hcop1]
      have htk : (d.buffer.drop d.headIdx ++
            List.replicate (newSize - (d.buffer.length - d.headIdx)) default).take
            (d.buffer.length - d.headIdx) = d.buffer.drop d.headIdx := by
        rw [List.take_append_eq_append_take, hsrc1, Nat.sub_self, List.take_zero,
          List.append_nil, ← hsrc1, List.take_length]
      have hdk : (d.buffer.drop d.headIdx ++
            List.replicate (newSize - (d.buffer.length - d.headIdx)) default).drop
            (d.buffer.length - d.headIdx)
          = List.replicate (newSize - (d.buffer.length - d.headIdx)) default := by
        rw [List.drop_append_eq_append_drop, hsrc1, Nat.sub_self, List.drop_zero,
          List.drop_eq_nil_of_le (by rw [hsrc1]), List.nil_append]
      rw [htk, hdk, hcop2]
      constructor
      · simp only [List.length_append, List.length_drop, List.length_take,
          List.length_replicate]
        omega
      · have hb : d.toList = d.buffer.drop d.headIdx ++ d.buffer.take d.tailIdx := by
          rcases Nat.lt_or_ge d.buffer.length (d.headIdx + d.size) with hgt | hge
          · rw [Deque.toList, if_neg (by omega), htv]
          · have heq : d.headIdx + d.size = d.buffer.length := by omega
            have ht0 : d.tailIdx = 0 := by omega
            rw [Deque.toList, if_pos (by omega), ht0, List.take_zero,
              List.append_nil, List.take_of_length_le (by simp; omega)]
        rw [hb, List.take_append_eq_append_take,
          List.take_of_length_le (by rw [hsrc1]; omega), hsrc1]
        have hst : d.size - (d.buffer.length - d.headIdx) = d.tailIdx := by omega
        rw [hst, List.take_append_eq_append_take, hsrc2, Nat.sub_self,
          List.take_zero, List.append_nil, List.take_of_length_le (le_of_eq hsrc2)]
  · -- size = 0
    have hs0 : d.size = 0 := by omega
    rw [Deque.resizedBuffer, if_neg h0]
    constructor
    · simp
    · rw [hs0, List.take_zero, Deque.toList, if_pos (by omega), hs0, List.take_zero]

theorem Deque.toList_length (d : Deque T) (hsz : d.size ≤ d.buffer.length)
    (hhd : d.headIdx ≤ d.buffer.length) : d.toList.length = d.size := by
  rw [Deque.toList]
  split
  · simp only [List.length_take, List.length_drop]
    omega
  · simp only [List.length_append, List.length_drop, List.length_take]
    omega

theorem Deque.resize_toList (d : Deque T) (newSize : Nat)
    (hsz : d.size ≤ d.buffer.length) (hhd : d.headIdx < d.buffer.length)
    (htl : d.tailIdx = (d.headIdx + d.size) % d.buffer.length)
    (hns : d.size ≤ newSize) :
    (d.resize newSize).toList = d.toList := by
  obtain ⟨hlen, htake⟩ := d.resize_spec newSize hsz hhd htl hns
  rw [Deque.resize, Deque.toList]
  simp only [List.drop_zero, Nat.zero_add, hlen]
  rw [if_pos hns, htake]

/-- On a power-of-two buffer, the masked increment of `nextIndex` is a
modular increment. -/
theorem Deque.nextIndex_eq (d : Deque T) (i k : Nat)
    (hk : d.buffer.length = 2 ^ k) :
    d.nextIndex i = (i + 1) % d.buffer.length := by
  rw [Deque.nextIndex, hk, Nat.and_pow_two_sub_one_eq_mod]

theorem Deque.resize_buffer (d : Deque T) (n : Nat) :
    (d.resize n).buffer = d.resizedBuffer n := rfl

theorem Deque.resize_fields (d : Deque T) (n : Nat) :
    (d.resize n).headIdx = 0 ∧ (d.resize n).tailIdx = d.size ∧
    (d.resize n).size = d.size ∧ (d.resize n).baseCap = d.baseCap :=
  ⟨rfl, rfl, rfl, rfl⟩

theorem Deque.ensureCapacity_spec (d : Deque T) (hwf : d.Wf) :
    d.ensureCapacity.WfBuf ∧ d.ensureCapacity.toList = d.toList ∧
    d.ensureCapacity.size = d.size ∧
    d.ensureCapacity.size < d.ensureCapacity.buffer.length := by
  rcases hwf with ⟨hb, hs, hh, ht, hbc⟩ | hwb
  · have hlen0 : d.buffer.length = 0 := by rw [hb]; rfl
    have hbase : (if d.baseCap = 0 then minCapacity else d.baseCap)
        = minCapacity := by
      rcases hbc with h | h <;> simp [h]
    rw [Deque.ensureCapacity, if_pos hlen0]
    simp only [hbase]
    refine ⟨⟨⟨4, by simp [minCapacity]⟩, by simp, rfl, by simp [hs],
      by simp [minCapacity, hh], by simp [hh, hs, ht],
      Or.inl (by simp [minCapacity])⟩,
      ?_, trivial, by simp [hs, minCapacity]⟩
    rw [Deque.toList, Deque.toList]
    simp [hs, hh, hb]
  · have hlen : ¬ d.buffer.length = 0 := by
      have := hwb.cap_min
      rw [minCapacity] at this
      omega
    rw [Deque.ensureCapacity, if_neg hlen]
    by_cases hfull : d.size = d.buffer.length
    · rw [if_pos hfull]
      obtain ⟨⟨k, hk⟩, hcap, hbase, hszle, hhd, htl, hshr⟩ := hwb
      have hshl : d.size <<< 1 = 2 * d.size := by
        rw [Nat.shiftLeft_eq]
        ring
      have hpos : 0 < d.size := by
        rw [hfull]
        rw [minCapacity] at hcap
        omega
      have hns : d.size ≤ d.size <<< 1 := by omega
      obtain ⟨hlen2, -⟩ := d.resize_spec (d.size <<< 1) hszle hhd htl hns
      obtain ⟨hrh, hrt, hrs, hrb⟩ := d.resize_fields (d.size <<< 1)
      refine ⟨⟨⟨k + 1, ?_⟩, ?_, ?_, ?_, ?_, ?_, ?_⟩,
        d.resize_toList _ hszle hhd htl hns, hrs, ?_⟩ <;>
        simp only [Deque.resize_buffer, hlen2, hrh, hrt, hrs, hrb]
      · rw [hshl, hfull, hk, pow_succ]
        ring
      · rw [minCapacity] at hcap ⊢
        omega
      · exact hbase
      · omega
      · omega
      · rw [Nat.zero_add, Nat.mod_eq_of_lt (by omega)]
      · right
        omega
      · omega
    · rw [if_neg hfull]
      exact ⟨hwb, rfl, rfl, Nat.lt_of_le_of_ne hwb.size_le hfull⟩

/-- Effect of the write-and-advance step of `PushBack` on a well-formed,
non-full ring: it appends the element to the sequence abstraction. -/
theorem Deque.pushStep_spec (e : Deque T) (x : T) (hwb : e.WfBuf)
    (hlt : e.size < e.buffer.length) :
    Deque.WfBuf { e with buffer := e.buffer.set e.tailIdx x,
                         tailIdx := e.nextIndex e.tailIdx,
                         size := e.size + 1 } ∧
    Deque.toList { e with buffer := e.buffer.set e.tailIdx x,
                          tailIdx := e.nextIndex e.tailIdx,
                          size := e.size + 1 } = e.toList ++ [x] := by
  obtain ⟨⟨k, hk⟩, hcap, hbase, hszle, hhd, htl, hshr⟩ := hwb
  have hlen : 0 < e.buffer.length := by omega
  have hmod : e.tailIdx =
      if e.headIdx + e.size < e.buffer.length then e.headIdx + e.size
      else e.headIdx + e.size - e.buffer.length := by
    rw [htl, mod_two_periods (by omega)]
  have hnext : e.nextIndex e.tailIdx = (e.tailIdx + 1) % e.buffer.length :=
    e.nextIndex_eq _ k hk
  constructor
  · refine ⟨⟨k, by simpa using hk⟩, by simpa using hcap, hbase,
      by simp only [List.length_set]; omega, by simpa using hhd, ?_, ?_⟩
    · show e.nextIndex e.tailIdx
        = (e.headIdx + (e.size + 1)) % (e.buffer.set e.tailIdx x).length
      rw [List.length_set, hnext, htl, Nat.mod_add_mod]
      congr 1
    · rcases hshr with h | h
      · exact Or.inl (by simpa using h)
      · refine Or.inr ?_
        simp only [List.length_set]
        omega
  · rw [Deque.toList, Deque.toList]
    dsimp only
    simp only [List.length_set]
    by_cases hw : e.headIdx + e.size < e.buffer.length
    · rw [if_pos hw] at hmod
      rw [if_pos (by omega), if_pos (by omega), hmod,
        List.set_eq_take_cons_drop x (by omega)]
      have hlt2 : (e.buffer.take (e.headIdx + e.size)).length
          = e.headIdx + e.size := by
        simp only [List.length_take]
        omega
      rw [List.drop_append_eq_append_drop, hlt2, List.drop_take]
      have h1 : e.headIdx + e.size - e.headIdx = e.size := by omega
      have h2 : e.headIdx - (e.headIdx + e.size) = 0 := by omega
      rw [h1, h2, List.drop_zero, List.take_append_eq_append_take]
      have hl3 : ((e.buffer.drop e.headIdx).take e.size).length = e.size := by
        simp only [List.length_take, List.length_drop]
        omega
      have hmin : min (e.size + 1) e.size = e.size := by omega
      have hsub : e.size + 1 - e.size = 1 := by omega
      rw [hl3, List.take_take, hmin, hsub]
      simp
    · rw [if_neg hw] at hmod
      by_cases heq : e.headIdx + e.size = e.buffer.length
      · have ht0 : e.tailIdx = 0 := by omega
        have hh0 : 0 < e.headIdx := by omega
        rw [if_neg (by omega), if_pos (by omega), ht0,
          List.set_eq_take_cons_drop x (by omega), List.take_zero,
          List.nil_append]
        have hd1 : (x :: e.buffer.drop 1).drop e.headIdx
            = e.buffer.drop e.headIdx := by
          obtain ⟨m, hm⟩ : ∃ m, e.headIdx = m + 1 := ⟨e.headIdx - 1, by omega⟩
          rw [hm, List.drop_succ_cons, List.drop_drop]
          congr 1
          omega
        have hd2 : (e.buffer.drop e.headIdx).take e.size
            = e.buffer.drop e.headIdx := by
          apply List.take_of_length_le
          simp only [List.length_drop]
          omega
        rw [hd1, hd2]
        have hx1 : e.headIdx + (e.size + 1) - e.buffer.length = 1 := by omega
        rw [hx1]
        simp
      · have hgt : e.buffer.length < e.headIdx + e.size := by omega
        have htv : e.tailIdx = e.headIdx + e.size - e.buffer.length := hmod
        have ht1 : 1 ≤ e.tailIdx := by omega
        have hth : e.tailIdx < e.headIdx := by omega
        rw [if_neg (by omega), if_neg (by omega),
          List.set_eq_take_cons_drop x (by omega)]
        have hlt3 : (e.buffer.take e.tailIdx).length = e.tailIdx := by
          simp only [List.length_take]
          omega
        rw [List.drop_append_eq_append_drop, hlt3,
          List.drop_eq_nil_of_le (by rw [hlt3]; omega), List.nil_append]
        have hd3 : (x :: e.buffer.drop (e.tailIdx + 1)).drop
            (e.headIdx - e.tailIdx) = e.buffer.drop e.headIdx := by
          obtain ⟨m, hm⟩ : ∃ m, e.headIdx - e.tailIdx = m + 1 :=
            ⟨e.headIdx - e.tailIdx - 1, by omega⟩
          rw [hm, List.drop_succ_cons, List.drop_drop]
          congr 1
          omega
        rw [hd3, List.take_append_eq_append_take, hlt3]
        have hx2 : e.headIdx + (e.size + 1) - e.buffer.length
            = e.tailIdx + 1 := by omega
        have hx3 : e.headIdx + e.size - e.buffer.length = e.tailIdx := by omega
        have hmin2 : min (e.tailIdx + 1) e.tailIdx = e.tailIdx := by omega
        have hsub2 : e.tailIdx + 1 - e.tailIdx = 1 := by omega
        rw [hx2, hx3, List.take_take, hmin2, hsub2]
        simp

theorem Deque.PushBack_spec (d : Deque T) (x : T) (hwf : d.Wf) :
    (d.PushBack x).WfBuf ∧ (d.PushBack x).toList = d.toList ++ [x] ∧
    (d.PushBack x).size = d.size + 1 := by
  obtain ⟨hwb, htol, hsz, hlt⟩ := d.ensureCapacity_spec hwf
  obtain ⟨hwb', htol'⟩ := Deque.pushStep_spec d.ensureCapacity x hwb hlt
  refine ⟨hwb', ?_, ?_⟩
  · rw [Deque.PushBack]
    rw [htol'] at *
    rw [htol]
  · rw [Deque.PushBack]
    dsimp only
    omega

theorem Deque.Front_spec (d : Deque T) (hwf : d.Wf) :
    d.Front = d.toList.head? := by
  rw [Deque.Front]
  by_cases h0 : d.size = 0
  · rw [if_pos h0]
    have hnil : d.toList.length = 0 := by
      rcases hwf with ⟨hb, hs, hh, ht, hbc⟩ | hwb
      · rw [Deque.toList_length] <;> simp [hb, hs, hh]
      · rw [d.toList_length hwb.size_le (le_of_lt hwb.head_lt), h0]
    rw [List.length_eq_zero] at hnil
    rw [hnil]
    rfl
  · rw [if_neg h0]
    have hwb : d.WfBuf := by
      rcases hwf with ⟨hb, hs, hh, ht, hbc⟩ | hwb
      · omega
      · exact hwb
    have hhd := hwb.head_lt
    have hdg : d.buffer.getD d.headIdx default = d.buffer[d.headIdx] := by
      rw [List.getD_eq_get _ _ hhd]
      simp
    obtain ⟨m, hm⟩ : ∃ m, d.size = m + 1 := ⟨d.size - 1, by omega⟩
    rw [Deque.toList]
    split
    · rw [List.drop_eq_getElem_cons hhd, hm, List.take_succ_cons, hdg]
      simp
    · rw [List.drop_eq_getElem_cons hhd, hdg]
      simp [List.getElem?_eq_getElem hhd]

/-- Effect of `shrinkIfNeeded` on a ring satisfying all well-formedness
fields except possibly the oversize bound, which is weakened by one popped
element: well-formedness is restored and the sequence abstraction kept. -/
theorem Deque.shrink_spec (m : Deque T)
    (pow2 : ∃ k, m.buffer.length = 2 ^ k)
    (hcap : minCapacity ≤ m.buffer.length)
    (hbase : m.baseCap = minCapacity)
    (hszle : m.size ≤ m.buffer.length)
    (hhd : m.headIdx < m.buffer.length)
    (htl : m.tailIdx = (m.headIdx + m.size) % m.buffer.length)
    (hweak : m.buffer.length ≤ 2 * minCapacity ∨
      m.buffer.length < 4 * (m.size + 1)) :
    m.shrinkIfNeeded.WfBuf ∧ m.shrinkIfNeeded.toList = m.toList ∧
    m.shrinkIfNeeded.size = m.size := by
  obtain ⟨k, hk⟩ := pow2
  rw [Deque.shrinkIfNeeded]
  by_cases hc : m.baseCap < m.buffer.length ∧ m.size <<< 2 ≤ m.buffer.length
  · rw [if_pos hc]
    obtain ⟨hgt16, hle4⟩ := hc
    rw [Nat.shiftLeft_eq] at hle4
    rw [hbase, minCapacity] at hgt16
    by_cases h32 : m.buffer.length ≤ 32
    · -- capacity is exactly 32; the shrink target is minCapacity
      have hlen32 : m.buffer.length = 32 := by
        by_contra hne
        have hklt : 2 ^ k < 2 ^ 5 := by omega
        have hkge : 2 ^ 4 < 2 ^ k := by omega
        have h5 : k < 5 := (Nat.pow_lt_pow_iff_right (by omega)).mp hklt
        have h4 : 4 < k := (Nat.pow_lt_pow_iff_right (by omega)).mp hkge
        omega
      have hs8 : m.size ≤ 8 := by omega
      have hnc : (if m.size <<< 1 < m.baseCap then m.baseCap
          else m.size <<< 1) = 16 := by
        rw [Nat.shiftLeft_eq, hbase, minCapacity]
        split <;> omega
      rw [hnc]
      have hns : m.size ≤ 16 := by omega
      obtain ⟨hlen2, -⟩ := m.resize_spec 16 hszle hhd htl hns
      obtain ⟨hrh, hrt, hrs, hrb⟩ := m.resize_fields 16
      refine ⟨⟨⟨4, ?_⟩, ?_, ?_, ?_, ?_, ?_, ?_⟩,
        m.resize_toList 16 hszle hhd htl hns, hrs⟩
      · rw [Deque.resize_buffer, hlen2]
        norm_num
      · rw [Deque.resize_buffer, hlen2, minCapacity]
      · rw [hrb, hbase]
      · rw [Deque.resize_buffer, hlen2, hrs]
        omega
      · rw [Deque.resize_buffer, hlen2, hrh]
        omega
      · rw [Deque.resize_buffer, hlen2, hrh, hrt, hrs, Nat.zero_add,
          Nat.mod_eq_of_lt (by omega)]
      · left
        rw [Deque.resize_buffer, hlen2, minCapacity]
        omega
    · -- capacity above 32: the pop happened exactly at the quarter mark
      have hk6 : 6 ≤ k := by
        by_contra hlt6
        have : 2 ^ k ≤ 2 ^ 5 := Nat.pow_le_pow_right (by omega) (by omega)
        omega
      obtain ⟨j, hj⟩ : ∃ j, k = j + 2 := ⟨k - 2, by omega⟩
      have hlen4 : m.buffer.length = 4 * 2 ^ j := by
        rw [hk, hj, pow_succ, pow_succ]
        ring
      have hje : 2 ^ 4 ≤ 2 ^ j := Nat.pow_le_pow_right (by omega) (by omega)
      rw [minCapacity] at hweak
      have hquarter : 4 * m.size = m.buffer.length := by
        rcases hweak with h | h
        · omega
        · omega
      have hsize : m.size = 2 ^ j := by omega
      have hs8 : 8 < m.size := by omega
      have hnc : (if m.size <<< 1 < m.baseCap then m.baseCap
          else m.size <<< 1) = 2 * m.size := by
        rw [Nat.shiftLeft_eq, hbase, minCapacity]
        split <;> omega
      rw [hnc]
      have hns : m.size ≤ 2 * m.size := by omega
      obtain ⟨hlen2, -⟩ := m.resize_spec (2 * m.size) hszle hhd htl hns
      obtain ⟨hrh, hrt, hrs, hrb⟩ := m.resize_fields (2 * m.size)
      refine ⟨⟨⟨j + 1, ?_⟩, ?_, ?_, ?_, ?_, ?_, ?_⟩,
        m.resize_toList (2 * m.size) hszle hhd htl hns, hrs⟩
      · rw [Deque.resize_buffer, hlen2, hsize, pow_succ]
        ring
      · rw [Deque.resize_buffer, hlen2, minCapacity]
        omega
      · rw [hrb, hbase]
      · rw [Deque.resize_buffer, hlen2, hrs]
        omega
      · rw [Deque.resize_buffer, hlen2, hrh]
        omega
      · rw [Deque.resize_buffer, hlen2, hrh, hrt, hrs, Nat.zero_add,
          Nat.mod_eq_of_lt (by omega)]
      · right
        rw [Deque.resize_buffer, hlen2, hrs]
        omega
  · rw [if_neg hc]
    refine ⟨⟨⟨k, hk⟩, hcap, hbase, hszle, hhd, htl, ?_⟩, rfl, rfl⟩
    rw [Decidable.not_and_iff_or_not] at hc
    rw [minCapacity] at hcap ⊢
    rcases hc with h | h
    · left
      rw [hbase, minCapacity] at h
      omega
    · right
      rw [Nat.shiftLeft_eq] at h
      omega

/-- `PopFront` on a well-formed non-empty deque returns the head of the
sequence abstraction and the deque holding its tail. -/
theorem Deque.PopFront_spec (d : Deque T) (hwf : d.Wf) (h0 : 0 < d.size) :
    ∃ t q, d.PopFront = some (t, q) ∧ d.toList = t :: q.toList ∧
      q.WfBuf ∧ q.size = d.size - 1 := by
  have hwb : d.WfBuf := by
    rcases hwf with ⟨hb, hs, hh, ht, hbc⟩ | hwb
    · omega
    · exact hwb
  obtain ⟨⟨k, hk⟩, hcap, hbase, hszle, hhd, htl, hshr⟩ := hwb
  have hlen : 0 < d.buffer.length := by omega
  have hnext : d.nextIndex d.headIdx = (d.headIdx + 1) % d.buffer.length :=
    d.nextIndex_eq _ k hk
  have hmodh : (d.headIdx + 1) % d.buffer.length =
      if d.headIdx + 1 < d.buffer.length then d.headIdx + 1 else 0 := by
    rw [mod_two_periods (by omega)]
    by_cases hc : d.headIdx + 1 < d.buffer.length <;> simp [hc] <;> omega
  have hdg : d.buffer.getD d.headIdx default = d.buffer[d.headIdx] := by
    rw [List.getD_eq_get _ _ hhd]
    simp
  have hsp := Deque.shrink_spec
      { d with buffer := d.buffer.set d.headIdx default,
               headIdx := d.nextIndex d.headIdx,
               size := d.size - 1 }
      ⟨k, by simp [hk]⟩ (by simpa using hcap) hbase
      (by simp only [List.length_set]; omega)
      (by simp only [List.length_set]; rw [hnext]; exact Nat.mod_lt _ hlen)
      (by simp only [List.length_set]
          show d.tailIdx = (d.nextIndex d.headIdx + (d.size - 1)) % d.buffer.length
          rw [hnext, Nat.mod_add_mod, htl]
          congr 1
          omega)
      (by simp only [List.length_set]
          rcases hshr with h | h
          · exact Or.inl h
          · refine Or.inr ?_
            show d.buffer.length < 4 * (d.size - 1 + 1)
            omega)
  obtain ⟨hqwf, hqtol, hqsz⟩ := hsp
  refine ⟨d.buffer.getD d.headIdx default,
    Deque.shrinkIfNeeded
      { d with buffer := d.buffer.set d.headIdx default,
               headIdx := d.nextIndex d.headIdx,
               size := d.size - 1 }, ?_, ?_, hqwf, ?_⟩
  · rw [Deque.PopFront, if_neg (by omega)]
  · rw [hqtol, hdg]
    rw [Deque.toList, Deque.toList]
    dsimp only
    simp only [List.length_set]
    rw [hnext, hmodh]
    have hds : (d.buffer.set d.headIdx default).drop (d.headIdx + 1)
        = d.buffer.drop (d.headIdx + 1) := by
      rw [List.set_eq_take_cons_drop _ hhd, List.drop_append_eq_append_drop,
        List.drop_eq_nil_of_le (by simp only [List.length_take]; omega)]
      have h1 : d.headIdx + 1 - (d.buffer.take d.headIdx).length = 1 := by
        simp only [List.length_take]
        omega
      rw [h1, List.nil_append, List.drop_succ_cons, List.drop_zero]
    have hts : ∀ n, n ≤ d.headIdx → (d.buffer.set d.headIdx default).take n
        = d.buffer.take n := by
      intro n hn
      rw [List.set_eq_take_cons_drop _ hhd, List.take_append_eq_append_take]
      have h1 : n - (d.buffer.take d.headIdx).length = 0 := by
        simp only [List.length_take]
        omega
      rw [h1, List.take_zero, List.append_nil, List.take_take,
        min_eq_left hn]
    by_cases hc1 : d.headIdx + 1 < d.buffer.length
    · rw [if_pos hc1]
      by_cases hwa : d.headIdx + d.size ≤ d.buffer.length
      · rw [if_pos hwa, if_pos (by omega)]
        obtain ⟨t, ht2⟩ : ∃ t, d.size = t + 1 := ⟨d.size - 1, by omega⟩
        rw [hds, List.drop_eq_getElem_cons hhd, ht2, List.take_succ_cons,
          Nat.add_sub_cancel]
      · rw [if_neg hwa, if_neg (by omega)]
        rw [hds, hts _ (by omega)]
        have he : d.headIdx + 1 + (d.size - 1) - d.buffer.length
            = d.headIdx + d.size - d.buffer.length := by omega
        rw [he, List.drop_eq_getElem_cons hhd, List.cons_append]
    · rw [if_neg hc1]
      have hh1 : d.headIdx + 1 = d.buffer.length := by omega
      by_cases hwa : d.headIdx + d.size ≤ d.buffer.length
      · rw [if_pos hwa, if_pos (by omega)]
        have hs1 : d.size = 1 := by omega
        rw [hs1, List.drop_eq_getElem_cons hhd]
        rfl
      · rw [if_neg hwa, if_pos (by omega)]
        rw [List.drop_eq_getElem_cons hhd, List.drop_eq_nil_of_le (by omega),
          List.drop_zero, hts _ (by omega)]
        have he2 : d.headIdx + d.size - d.buffer.length = d.size - 1 := by omega
        rw [he2]
        simp
  · rw [hqsz]

theorem Deque.wf_zero : (Deque.zero : Deque T).Wf :=
  Or.inl ⟨rfl, rfl, rfl, rfl, Or.inl rfl⟩

theorem Deque.wf_new : (Deque.new : Deque T).Wf :=
  Or.inl ⟨rfl, rfl, rfl, rfl, Or.inr rfl⟩

theorem Deque.toList_zero : (Deque.zero : Deque T).toList = [] := rfl

theorem Deque.toList_new : (Deque.new : Deque T).toList = [] := rfl

theorem Deque.toList_length_wf (d : Deque T) (hwf : d.Wf) :
    d.toList.length = d.size := by
  rcases hwf with ⟨hb, hs, hh, ht, hbc⟩ | hwb
  · rw [Deque.toList_length] <;> simp [hb, hs, hh]
  · exact d.toList_length hwb.size_le (le_of_lt hwb.head_lt)

/-- The backlog contract of the deque: the four operations the worker pool
invokes on its waiting queue. -/
inductive QueueOp (T : Type) where
  | pushBack (x : T)
  | popFront
  | front
  | size

/-- Observable result of one backlog-contract operation (`panicked` stands
for the deque's empty-queue panics). -/
inductive QueueOut (T : Type) where
  | ok
  | val (x : T)
  | count (n : Nat)
  | panicked
  deriving Repr, DecidableEq

/-- One backlog-contract operation interpreted on the ring-buffer deque. -/
def Deque.runOp (d : Deque T) : QueueOp T → QueueOut T × Deque T
  | .pushBack x => (.ok, d.PushBack x)
  | .popFront =>
      match d.PopFront with
      | some (x, d') => (.val x, d')
      | none => (.panicked, d)
  | .front =>
      match d.Front with
      | some x => (.val x, d)
      | none => (.panicked, d)
  | .size => (.count d.Size, d)

/-- A whole operation sequence interpreted on the ring-buffer deque,
producing the trace of observable outputs. -/
def Deque.runOps (d : Deque T) : List (QueueOp T) → List (QueueOut T)
  | [] => []
  | op :: ops => (d.runOp op).1 :: (d.runOp op).2.runOps ops

/-- Reference model: one operation on a plain list-based FIFO queue. -/
def listRunOp (q : List T) : QueueOp T → QueueOut T × List T
  | .pushBack x => (.ok, q ++ [x])
  | .popFront =>
      match q with
      | [] => (.panicked, q)
      | x :: rest => (.val x, rest)
  | .front =>
      match q with
      | [] => (.panicked, q)
      | x :: _ => (.val x, q)
  | .size => (.count q.length, q)

/-- Reference model: a whole operation sequence on the list-based queue. -/
def listRunOps (q : List T) : List (QueueOp T) → List (QueueOut T)
  | [] => []
  | op :: ops => (listRunOp q op).1 :: listRunOps (listRunOp q op).2 ops

/-- One-step simulation: on well-formed deques each contract operation
produces the same observable output as the list model and re-establishes
the simulation relation. -/
theorem Deque.runOp_sim (d : Deque T) (hwf : d.Wf) (op : QueueOp T) :
    (d.runOp op).1 = (listRunOp d.toList op).1 ∧
    (d.runOp op).2.Wf ∧ (d.runOp op).2.toList = (listRunOp d.toList op).2 := by
  cases op
  case pushBack x =>
    obtain ⟨hwb, htol, hsz⟩ := d.PushBack_spec x hwf
    exact ⟨rfl, Or.inr hwb, htol⟩
  case popFront =>
    by_cases h0 : d.size = 0
    · have hnil : d.toList = [] := by
        have := d.toList_length_wf hwf
        rw [h0] at this
        exact List.length_eq_zero.mp this
      have hpf : d.PopFront = none := by rw [Deque.PopFront, if_pos h0]
      simp [Deque.runOp, listRunOp, hpf, hnil, hwf]
    · obtain ⟨t, q, hpf, htol, hqwf, hqsz⟩ := d.PopFront_spec hwf (by omega)
      have hro : d.runOp QueueOp.popFront = (QueueOut.val t, q) := by
        simp [Deque.runOp, hpf]
      rw [hro]
      refine ⟨?_, Or.inr hqwf, ?_⟩ <;> simp [listRunOp, htol]
  case front =>
    have hf := d.Front_spec hwf
    by_cases h0 : d.size = 0
    · have hnil : d.toList = [] := by
        have := d.toList_length_wf hwf
        rw [h0] at this
        exact List.length_eq_zero.mp this
      rw [hnil] at hf
      simp only [List.head?_nil] at hf
      simp [Deque.runOp, listRunOp, hf, hnil, hwf]
    · have hlen : 0 < d.toList.length := by
        rw [d.toList_length_wf hwf]
        omega
      obtain ⟨t, rest, hcons⟩ : ∃ t rest, d.toList = t :: rest := by
        cases hl : d.toList with
        | nil => rw [hl] at hlen; simp at hlen
        | cons a as => exact ⟨a, as, rfl⟩
      rw [hcons] at hf
      simp only [List.head?_cons] at hf
      simp [Deque.runOp, listRunOp, hf, hcons, hwf]
  case size =>
    have := d.toList_length_wf hwf
    simp [Deque.runOp, listRunOp, Deque.Size, this, hwf]

/-- Trace-level simulation over an arbitrary operation sequence. -/
theorem Deque.runOps_sim (d : Deque T) (q : List T) (hwf : d.Wf)
    (heq : d.toList = q) (ops : List (QueueOp T)) :
    d.runOps ops = listRunOps q ops := by
  induction ops generalizing d q with
  | nil => rfl
  | cons op ops ih =>
    obtain ⟨h1, h2, h3⟩ := d.runOp_sim hwf op
    rw [Deque.runOps, listRunOps, ← heq]
    exact congrArg₂ List.cons h1 (ih _ _ h2 (by rw [h3, heq]))

theorem Deque.shrink_size_eq (d : Deque T) : d.shrinkIfNeeded.size = d.size := by
  rw [Deque.shrinkIfNeeded]
  split <;> rfl

theorem Deque.PopFront_size {d : Deque T} {t : T} {q : Deque T}
    (h : d.PopFront = some (t, q)) : q.size = d.size - 1 ∧ 0 < d.size := by
  by_cases h0 : d.size = 0
  · rw [Deque.PopFront, if_pos h0] at h
    exact absurd h (by simp)
  · rw [Deque.PopFront, if_neg h0] at h
    simp only [Option.some.injEq, Prod.mk.injEq] at h
    obtain ⟨-, h2⟩ := h
    subst h2
    rw [Deque.shrink_size_eq]
    exact ⟨rfl, by omega⟩

theorem Deque.PopFront_eq_none {d : Deque T} (h : d.PopFront = none) :
    d.size = 0 := by
  by_cases h0 : d.size = 0
  · exact h0
  · rw [Deque.PopFront, if_neg h0] at h
    simp at h

end OpDeque

namespace OpWorkerPool

open OpDeque

/-- Task identities: each distinct submitted closure (`func()`) is given an
identifier; the `nil` sentinel sent on `workerChan` is `Option.none`. -/
abbrev Task := Nat

/-- Go's `int32(n)` narrowing of a non-negative length, as stored by
`p.waitingCount.Store(int32(p.waitingQueue.Size()))`: a balanced modulus at
width 32.  (`WaitingQueueSize` widens it back with `int(...)`, which is
value-preserving.) -/
def int32 (n : Nat) : Int := Int.bmod n (2 ^ 32)

/-- Arbiter-private state of the `dispatch` loop: the local `workerCount`
and `idle` variables, the `waitingQueue` deque, the published `waitingCount`
atomic, and a log of every value the arbiter has sent to `workerChan`
(either directly or as the first task of a freshly spawned `worker`) —
`some t` is a task handoff, `none` the shutdown/reclaim sentinel. -/
structure DispatchState where
  workerCount : Int
  idle : Bool
  waitingQueue : Deque Task
  waitingCount : Int
  dispatched : List (Option Task)

/-- Oracle events resolving the nondeterminism of the two `select`
statements of the dispatch loop.  `arrive`/`closed`/`timeout` are the three
outcomes of the main `select` (only reachable when the waiting queue is
empty); `wqArrive`/`wqClosed`/`wqHandoff` are the outcomes of
`processWaitingQueue`'s `select` (only reachable when it is not).  The
booleans resolve the non-blocking channel offers: `workerReady` is whether
`workerChan <- task` succeeded immediately in `handleTask`, `offerOk`
whether `workerChan <- nil` succeeded in `killIdleWorker`. -/
inductive Ev where
  | arrive (t : Task) (workerReady : Bool)
  | closed
  | timeout (offerOk : Bool)
  | wqArrive (t : Task)
  | wqClosed
  | wqHandoff

/-- `handleTask` from workerpool.go: non-blocking direct handoff if a unit
is ready; otherwise spawn a new unit if below `maxWorkers`; otherwise push
onto the waiting queue and publish its size.  (`handleTask` never touches
the arbiter's `idle` flag; the source clears `idle` right after the call,
which is the same function as clearing it right before.) -/
def handleTask (maxWorkers : Int) (t : Task) (workerReady : Bool)
    (s : DispatchState) : DispatchState :=
  if workerReady then
    { s with dispatched := s.dispatched ++ [some t] }
  else if s.workerCount < maxWorkers then
    { s with dispatched := s.dispatched ++ [some t],
             workerCount := s.workerCount + 1 }
  else
    { s with waitingQueue := s.waitingQueue.PushBack t,
             waitingCount := int32 (s.waitingQueue.PushBack t).Size }

/-- `killIdleWorker` from workerpool.go: a non-blocking offer of the `nil`
sentinel on `workerChan`; the oracle `offerOk` resolves whether some unit was
ready to receive, and the function returns whether the send happened. -/
def killIdleWorker (offerOk : Bool) : Bool := offerOk

/-- Outcome of one iteration of the dispatch loop: continue, or break out
of `dispatchLoop`. -/
inductive StepRes where
  | cont (s : DispatchState)
  | exit (s : DispatchState)

/-- The state carried by a `StepRes`. -/
def StepRes.state : StepRes → DispatchState
  | .cont s => s
  | .exit s => s

/-- One iteration of the `dispatch` loop of workerpool.go, driven by an
oracle event; `none` means the event is not enabled in this state (the
guards mirror the `waitingQueue.Size() > 0` test at the top of the loop).

* queue non-empty (`processWaitingQueue`): a received task is pushed onto
  the queue; a closed `taskChan` exits the loop at once; a ready unit gets
  `Front()` and the queue is popped.  Either queue mutation republishes
  `waitingCount`.
* queue empty: a received task goes through `handleTask` and clears `idle`;
  a closed `taskChan` exits the loop; a timer firing reclaims at most one
  unit — only when the previous iteration was already idle and
  `workerCount > 0`, and only if the non-blocking sentinel offer succeeds —
  and sets `idle`. -/
def dispatchStep (maxWorkers : Int) (s : DispatchState) : Ev → Option StepRes
  | .wqArrive t =>
      if s.waitingQueue.Size > 0 then
        some (.cont { s with waitingQueue := s.waitingQueue.PushBack t,
                             waitingCount := int32 (s.waitingQueue.PushBack t).Size })
      else none
  | .wqClosed =>
      if s.waitingQueue.Size > 0 then some (.exit s) else none
  | .wqHandoff =>
      if s.waitingQueue.Size > 0 then
        match s.waitingQueue.Front with
        | some t =>
            match s.waitingQueue.PopFront with
            | some (_, q) =>
                some (.cont { s with dispatched := s.dispatched ++ [some t],
                                     waitingQueue := q,
                                     waitingCount := int32 q.Size })
            | none => none
        | none => none
      else none
  | .arrive t workerReady =>
      if s.waitingQueue.Size = 0 then
        some (.cont (handleTask maxWorkers t workerReady { s with idle := false }))
      else none
  | .closed =>
      if s.waitingQueue.Size = 0 then some (.exit s) else none
  | .timeout offerOk =>
      if s.waitingQueue.Size = 0 then
        if s.idle ∧ s.workerCount > 0 then
          if killIdleWorker offerOk then
            some (.cont { s with dispatched := s.dispatched ++ [none],
                                 workerCount := s.workerCount - 1,
                                 idle := true })
          else some (.cont { s with idle := true })
        else some (.cont { s with idle := true })
      else none

/-- The dispatch loop's state at entry: `workerCount = 0`, `idle = false`,
the zero-value waiting queue, zero published counter, nothing dispatched. -/
def initState : DispatchState :=
  { workerCount := 0, idle := false, waitingQueue := Deque.zero,
    waitingCount := 0, dispatched := [] }

/-- Run the dispatch loop on an oracle event sequence.  The result is the
state at the end of the sequence (`cont` if the loop is still live, `exit`
if it broke out of `dispatchLoop`); `none` means the sequence is not a
valid schedule from this state. -/
def runLoop (maxWorkers : Int) (s : DispatchState) : List Ev → Option StepRes
  | [] => some (.cont s)
  | e :: es =>
      match dispatchStep maxWorkers s e with
      | none => none
      | some (.cont s') => runLoop maxWorkers s' es
      | some (.exit s') =>
          match es with
          | [] => some (.exit s')
          | _ :: _ => none

/-- `runQueuedTasks` from workerpool.go: while the waiting queue is
non-empty, pop its front, send it to a unit, and republish the counter. -/
def runQueuedTasks (s : DispatchState) : DispatchState :=
  match h : s.waitingQueue.PopFront with
  | none => s
  | some (t, q) =>
      runQueuedTasks { s with dispatched := s.dispatched ++ [some t],
                              waitingQueue := q,
                              waitingCount := int32 q.Size }
termination_by s.waitingQueue.size
decreasing_by
  have := Deque.PopFront_size h
  omega

/-- The `for workerCount > 0` loop after `dispatchLoop` in workerpool.go:
send the `nil` sentinel once per remaining live unit. -/
def sentinelFlush (s : DispatchState) : DispatchState :=
  if 0 < s.workerCount then
    sentinelFlush { s with dispatched := s.dispatched ++ [none],
                           workerCount := s.workerCount - 1 }
  else s
termination_by s.workerCount.toNat
decreasing_by
  omega

/-- Everything `dispatch` does after leaving `dispatchLoop`: drain the
backlog when `waitAll` (i.e. `StopWait`) was requested, then terminate all
remaining units. -/
def finishDispatch (waitAll : Bool) (s : DispatchState) : DispatchState :=
  sentinelFlush (if waitAll then runQueuedTasks s else s)

/-- `worker` from workerpool.go, applied to the sequence of values one unit
receives (its spawn task first, then each receive from `workerChan`): the
tasks it executes, in order — it runs every task until the first `nil`
sentinel, then exits. -/
def workerExecuted : List (Option Task) → List Task
  | [] => []
  | none :: _ => []
  | some t :: rest => t :: workerExecuted rest

/-- The tasks in a dispatch log (dropping `nil` sentinels). -/
def tasksOf (l : List (Option Task)) : List Task := l.filterMap id

/-- The tasks an event sequence hands to the arbiter (received from
`taskChan` in either `select`). -/
def acceptedTasks : List Ev → List Task
  | [] => []
  | .arrive t _ :: es => t :: acceptedTasks es
  | .wqArrive t :: es => t :: acceptedTasks es
  | .closed :: es => acceptedTasks es
  | .timeout _ :: es => acceptedTasks es
  | .wqClosed :: es => acceptedTasks es
  | .wqHandoff :: es => acceptedTasks es

theorem tasksOf_append_some (l : List (Option Task)) (t : Task) :
    tasksOf (l ++ [some t]) = tasksOf l ++ [t] := by
  simp [tasksOf]

theorem tasksOf_append_none (l : List (Option Task)) :
    tasksOf (l ++ [none]) = tasksOf l := by
  simp [tasksOf]

theorem toList_eq_nil_of_size_zero (d : Deque Task) (hwf : d.Wf)
    (h : d.Size = 0) : d.toList = [] :=
  List.length_eq_zero.mp (by rw [d.toList_length_wf hwf]; exact h)

/-- Invariant of the dispatch loop, for the effective `maxWorkers` of the
pool: worker-count bounds, queue-only-when-saturated, a well-formed waiting
queue, and a published counter that matches the queue's size. -/
def Inv (maxWorkers : Int) (s : DispatchState) : Prop :=
  0 ≤ s.workerCount ∧ s.workerCount ≤ maxWorkers ∧
  (0 < s.waitingQueue.Size → s.workerCount = maxWorkers) ∧
  s.waitingQueue.Wf ∧ s.waitingCount = int32 s.waitingQueue.Size

theorem initState_inv (maxWorkers : Int) (h : 1 ≤ maxWorkers) :
    Inv maxWorkers initState := by
  refine ⟨le_refl 0, ?_, ?_, Deque.wf_zero, by decide⟩
  · show (0 : Int) ≤ maxWorkers
    omega
  · intro hx
    simp [initState, Deque.Size, Deque.zero] at hx

/-- Introduction rule for `Inv`, used to state the component obligations at
explicit record states. -/
theorem inv_intro (maxWorkers : Int) (s : DispatchState)
    (ha : 0 ≤ s.workerCount) (hb : s.workerCount ≤ maxWorkers)
    (hc : 0 < s.waitingQueue.Size → s.workerCount = maxWorkers)
    (hd : s.waitingQueue.Wf) (he : s.waitingCount = int32 s.waitingQueue.Size) :
    Inv maxWorkers s := ⟨ha, hb, hc, hd, he⟩

/-- One dispatch-loop iteration preserves the invariant, and moves task
multiplicities only between the accepted stream, the dispatch log and the
waiting queue. -/
theorem dispatchStep_inv (maxWorkers : Int) (s : DispatchState) (e : Ev)
    (r : StepRes) (hInv : Inv maxWorkers s)
    (h : dispatchStep maxWorkers s e = some r) :
    Inv maxWorkers r.state ∧
    ∀ id : Task,
      (tasksOf r.state.dispatched).count id
        + (r.state.waitingQueue.toList).count id
      = (tasksOf s.dispatched).count id + (s.waitingQueue.toList).count id
        + (acceptedTasks [e]).count id := by
  obtain ⟨h1, h2, h3, h4, h5⟩ := hInv
  cases e with
  | wqArrive t =>
    rw [dispatchStep] at h
    split at h
    case isFalse => exact absurd h (by simp)
    case isTrue hguard =>
    obtain ⟨hwb, htol, hsz⟩ := s.waitingQueue.PushBack_spec t h4
    simp only [Option.some.injEq] at h
    subst h
    refine ⟨inv_intro _ _ ?_ ?_ ?_ ?_ ?_, ?_⟩ <;> try dsimp only [StepRes.state]
    · exact h1
    · exact h2
    · exact fun _ => h3 hguard
    · exact Or.inr hwb
    · intro id
      rw [htol, List.count_append]
      simp [acceptedTasks]
      omega
  | wqClosed =>
    rw [dispatchStep] at h
    split at h
    case isFalse => exact absurd h (by simp)
    case isTrue hguard =>
    simp only [Option.some.injEq] at h
    subst h
    refine ⟨inv_intro _ _ ?_ ?_ ?_ ?_ ?_, ?_⟩ <;> try dsimp only [StepRes.state]
    · exact h1
    · exact h2
    · exact h3
    · exact h4
    · exact h5
    · intro id
      simp [acceptedTasks]
  | wqHandoff =>
    rw [dispatchStep] at h
    split at h
    case isFalse => exact absurd h (by simp)
    case isTrue hguard =>
    have hsz0 : 0 < s.waitingQueue.size := hguard
    obtain ⟨t, q, hpf, htol, hqwf, hqsz⟩ := s.waitingQueue.PopFront_spec h4 hsz0
    have hfr : s.waitingQueue.Front = some t := by
      rw [s.waitingQueue.Front_spec h4, htol]
      rfl
    rw [hfr, hpf] at h
    simp only [Option.some.injEq] at h
    subst h
    refine ⟨inv_intro _ _ ?_ ?_ ?_ ?_ ?_, ?_⟩ <;> try dsimp only [StepRes.state]
    · exact h1
    · exact h2
    · exact fun _ => h3 hguard
    · exact Or.inr hqwf
    · intro id
      rw [tasksOf_append_some, List.count_append, htol]
      simp only [acceptedTasks, List.count_cons, List.count_nil]
      simp
      omega
  | arrive t ready =>
    rw [dispatchStep] at h
    split at h
    case isFalse => exact absurd h (by simp)
    case isTrue hguard =>
    simp only [Option.some.injEq] at h
    subst h
    have hqnil : s.waitingQueue.toList = [] :=
      toList_eq_nil_of_size_zero _ h4 hguard
    simp only [StepRes.state, handleTask]
    split
    case isTrue hready =>
      refine ⟨inv_intro _ _ ?_ ?_ ?_ ?_ ?_, ?_⟩ <;> try dsimp only
      · exact h1
      · exact h2
      · exact fun _ => absurd ‹_› (show ¬ 0 < s.waitingQueue.Size by omega)
      · exact h4
      · exact h5
      · intro id
        rw [tasksOf_append_some, List.count_append]
        simp [acceptedTasks, hqnil]
    case isFalse hready =>
      split
      case isTrue hlt =>
        refine ⟨inv_intro _ _ ?_ ?_ ?_ ?_ ?_, ?_⟩ <;> try dsimp only
        · omega
        · omega
        · exact fun _ => absurd ‹_› (show ¬ 0 < s.waitingQueue.Size by omega)
        · exact h4
        · exact h5
        · intro id
          rw [tasksOf_append_some, List.count_append]
          simp [acceptedTasks, hqnil]
      case isFalse hge =>
        obtain ⟨hwb, htol, hsz⟩ := s.waitingQueue.PushBack_spec t h4
        refine ⟨inv_intro _ _ ?_ ?_ ?_ ?_ ?_, ?_⟩ <;> try dsimp only
        · exact h1
        · exact h2
        · exact fun _ => by omega
        · exact Or.inr hwb
        · intro id
          rw [htol, hqnil, List.count_append]
          simp [acceptedTasks]
  | closed =>
    rw [dispatchStep] at h
    split at h
    case isFalse => exact absurd h (by simp)
    case isTrue hguard =>
    simp only [Option.some.injEq] at h
    subst h
    refine ⟨inv_intro _ _ ?_ ?_ ?_ ?_ ?_, ?_⟩ <;> try dsimp only [StepRes.state]
    · exact h1
    · exact h2
    · exact h3
    · exact h4
    · exact h5
    · intro id
      simp [acceptedTasks]
  | timeout offerOk =>
    rw [dispatchStep] at h
    split at h
    case isFalse => exact absurd h (by simp)
    case isTrue hguard =>
    split at h
    case isTrue hidle =>
      split at h
      case isTrue hok =>
        simp only [Option.some.injEq] at h
        subst h
        refine ⟨inv_intro _ _ ?_ ?_ ?_ ?_ ?_, ?_⟩ <;> try dsimp only [StepRes.state]
        · omega
        · omega
        · exact fun _ => absurd ‹_› (show ¬ 0 < s.waitingQueue.Size by omega)
        · exact h4
        · exact h5
        · intro id
          rw [tasksOf_append_none]
          simp [acceptedTasks]
      case isFalse hok =>
        simp only [Option.some.injEq] at h
        subst h
        refine ⟨inv_intro _ _ ?_ ?_ ?_ ?_ ?_, ?_⟩ <;> try dsimp only [StepRes.state]
        · exact h1
        · exact h2
        · exact h3
        · exact h4
        · exact h5
        · intro id
          simp [acceptedTasks]
    case isFalse hidle =>
      simp only [Option.some.injEq] at h
      subst h
      refine ⟨inv_intro _ _ ?_ ?_ ?_ ?_ ?_, ?_⟩ <;> try dsimp only [StepRes.state]
      · exact h1
      · exact h2
      · exact h3
      · exact h4
      · exact h5
      · intro id
        simp [acceptedTasks]

theorem acceptedTasks_cons (e : Ev) (es : List Ev) :
    acceptedTasks (e :: es) = acceptedTasks [e] ++ acceptedTasks es := by
  cases e <;> simp [acceptedTasks]

/-- Every state reachable by the dispatch loop from an invariant state
satisfies the invariant, and the dispatch log plus the waiting queue hold
exactly the accepted tasks (with multiplicity). -/
theorem runLoop_inv (maxWorkers : Int) (s : DispatchState) (evs : List Ev)
    (r : StepRes) (hInv : Inv maxWorkers s)
    (h : runLoop maxWorkers s evs = some r) :
    Inv maxWorkers r.state ∧
    ∀ id : Task,
      (tasksOf r.state.dispatched).count id
        + (r.state.waitingQueue.toList).count id
      = (tasksOf s.dispatched).count id + (s.waitingQueue.toList).count id
        + (acceptedTasks evs).count id := by
  induction evs generalizing s with
  | nil =>
    rw [runLoop] at h
    simp only [Option.some.injEq] at h
    subst h
    exact ⟨hInv, fun id => by simp only [StepRes.state]; simp [acceptedTasks]⟩
  | cons e es ih =>
    rw [runLoop] at h
    cases hd : dispatchStep maxWorkers s e with
    | none =>
      rw [hd] at h
      exact absurd (show (none : Option StepRes) = some r from h) (by simp)
    | some r' =>
      rw [hd] at h
      obtain ⟨hInv', hcount'⟩ := dispatchStep_inv maxWorkers s e r' hInv hd
      cases r' with
      | cont s' =>
        have h' : runLoop maxWorkers s' es = some r := h
        obtain ⟨hI, hC⟩ := ih s' hInv' h'
        refine ⟨hI, fun id => ?_⟩
        have hc1 := hcount' id
        have hc2 := hC id
        rw [acceptedTasks_cons, List.count_append]
        simp only [StepRes.state] at hc1
        omega
      | exit s' =>
        cases es with
        | nil =>
          have h' : some (StepRes.exit s') = some r := h
          simp only [Option.some.injEq] at h'
          subst h'
          refine ⟨hInv', fun id => ?_⟩
          have hc1 := hcount' id
          rw [acceptedTasks_cons, List.count_append]
          simp [acceptedTasks]
          omega
        | cons e2 es2 =>
          exact absurd (show (none : Option StepRes) = some r from h) (by simp)

/-- The post-loop sentinel flush sends exactly `workerCount` sentinels and
zeroes the count, leaving every other component untouched. -/
theorem sentinelFlush_spec (s : DispatchState) :
    (sentinelFlush s).dispatched
      = s.dispatched ++ List.replicate s.workerCount.toNat none ∧
    (sentinelFlush s).workerCount
      = (if 0 < s.workerCount then 0 else s.workerCount) ∧
    (sentinelFlush s).waitingQueue = s.waitingQueue ∧
    (sentinelFlush s).waitingCount = s.waitingCount ∧
    (sentinelFlush s).idle = s.idle := by
  generalize hn : s.workerCount.toNat = n
  induction n generalizing s with
  | zero =>
    rw [sentinelFlush, if_neg (by omega)]
    simp only [List.replicate_zero, List.append_nil]
    refine ⟨trivial, ?_, trivial, trivial, trivial⟩
    rw [if_neg (by omega)]
  | succ n ih =>
    rw [sentinelFlush, if_pos (by omega)]
    obtain ⟨ih1, ih2, ih3, ih4, ih5⟩ := ih
      { workerCount := s.workerCount - 1, idle := s.idle,
        waitingQueue := s.waitingQueue, waitingCount := s.waitingCount,
        dispatched := s.dispatched ++ [none] } (by dsimp only; omega)
    dsimp only at ih1 ih2 ih3 ih4 ih5
    refine ⟨?_, ?_, ih3, ih4, ih5⟩
    · rw [ih1, List.append_assoc]
      congr 1
    · rw [ih2]
      split <;> split <;> omega
  
/-- Draining the backlog after the loop: every queued task is dispatched,
in FIFO order, after the tasks already dispatched; the queue ends empty;
worker count and idle flag are untouched; the published counter ends at the
final store (`int32 0`) unless the queue was already empty. -/
theorem runQueuedTasks_spec (s : DispatchState) (hwf : s.waitingQueue.Wf) :
    (runQueuedTasks s).dispatched
      = s.dispatched ++ (s.waitingQueue.toList).map some ∧
    (runQueuedTasks s).waitingQueue.Size = 0 ∧
    (runQueuedTasks s).workerCount = s.workerCount ∧
    (runQueuedTasks s).idle = s.idle ∧
    (runQueuedTasks s).waitingCount
      = (if 0 < s.waitingQueue.Size then int32 0 else s.waitingCount) := by
  generalize hn : s.waitingQueue.size = n
  induction n generalizing s with
  | zero =>
    have hnil : s.waitingQueue.toList = [] :=
      toList_eq_nil_of_size_zero _ hwf hn
    rw [runQueuedTasks]
    split
    case h_2 t q heq =>
      have := Deque.PopFront_size heq
      omega
    case h_1 heq =>
      rw [hnil]
      simp only [List.map_nil, List.append_nil]
      refine ⟨trivial, hn, trivial, trivial, ?_⟩
      have hsz : s.waitingQueue.Size = 0 := hn
      rw [if_neg (by omega)]
  | succ n ih =>
    rw [runQueuedTasks]
    split
    case h_1 heq =>
      have := Deque.PopFront_eq_none heq
      omega
    case h_2 t q heq =>
      obtain ⟨t', q', hpf, htol, hqwf, hqsz⟩ :=
        s.waitingQueue.PopFront_spec hwf (by omega)
      rw [heq] at hpf
      simp only [Option.some.injEq, Prod.mk.injEq] at hpf
      obtain ⟨ht', hq'⟩ := hpf
      subst ht'
      subst hq'
      obtain ⟨ih1, ih2, ih3, ih4, ih5⟩ := ih
        { workerCount := s.workerCount, idle := s.idle,
          waitingQueue := q, waitingCount := int32 q.Size,
          dispatched := s.dispatched ++ [some t] }
        (Or.inr hqwf) (by show q.size = n; omega)
      dsimp only at ih1 ih2 ih3 ih4 ih5
      refine ⟨?_, ih2, ih3, ih4, ?_⟩
      · rw [ih1, htol, List.append_assoc]
        rfl
      · rw [ih5]
        have hpos : 0 < s.waitingQueue.Size := by
          show 0 < s.waitingQueue.size
          omega
        rw [if_pos hpos]
        by_cases hq0 : 0 < q.Size
        · rw [if_pos hq0]
        · rw [if_neg hq0]
          have hq0' : ¬ 0 < q.size := hq0
          have hz : q.Size = 0 := by
            show q.size = 0
            omega
          rw [hz]
theorem tasksOf_append (l1 l2 : List (Option Task)) :
    tasksOf (l1 ++ l2) = tasksOf l1 ++ tasksOf l2 := by
  simp [tasksOf]

theorem tasksOf_map_some (l : List Task) : tasksOf (l.map some) = l := by
  simp [tasksOf]

theorem tasksOf_replicate_none (n : Nat) :
    tasksOf (List.replicate n none) = [] := by
  induction n with
  | zero => rfl
  | succ n ih => rw [List.replicate_succ]; simpa [tasksOf] using ih

/-- A unit executes every task it receives before the sentinel exactly once
and in order: a receive sequence of the tasks `ts` followed by the `nil`
sentinel executes precisely `ts`. -/
theorem workerExecuted_spec (ts : List Task) (rest : List (Option Task)) :
    workerExecuted (ts.map some ++ none :: rest) = ts := by
  induction ts with
  | nil => rfl
  | cons t ts ih =>
    simp only [List.map_cons, List.cons_append, workerExecuted]
    rw [show (List.map some ts).append (none :: rest)
        = List.map some ts ++ none :: rest from rfl, ih]

/-- Result of a `Submit`/`SubmitWait` call against the channel state:
`accepted` is the synchronous rendezvous handing the task to the arbiter;
`noop` means no send happened at all; `panicked` is the Go runtime panic
raised by sending on the closed `taskChan` (the fatal PoolClosed signal). -/
inductive SubmitResult where
  | accepted (t : Task)
  | noop
  | panicked
  deriving Repr, DecidableEq

/-- `Submit` from workerpool.go: a nil task is ignored; otherwise the task
is sent on `taskChan`, which panics if the channel is closed. -/
def Submit (taskChanClosed : Bool) (task : Option Task) : SubmitResult :=
  match task with
  | none => SubmitResult.noop
  | some t => if taskChanClosed then SubmitResult.panicked
              else SubmitResult.accepted t

/-- `SubmitWait` from workerpool.go: a nil task returns immediately;
otherwise the task (wrapped with its completion gate) is sent on `taskChan`
exactly like `Submit`, and the caller then blocks on the gate. -/
def SubmitWait (taskChanClosed : Bool) (task : Option Task) : SubmitResult :=
  match task with
  | none => SubmitResult.noop
  | some t => if taskChanClosed then SubmitResult.panicked
              else SubmitResult.accepted t

/-- The pool façade's flags: `maxWorkers` (after `New`'s clamp), the
mutex-guarded `isStopped`/`waitAll`, the `stopOnce` latch and the two
channel-closed states. -/
structure PoolState where
  maxWorkers : Int
  isStopped : Bool
  waitAll : Bool
  stopOnceDone : Bool
  stopSignalClosed : Bool
  taskChanClosed : Bool
  deriving Repr, DecidableEq

/-- The `if maxWorkers < 1 { maxWorkers = 1 }` clamp in `New`. -/
def effectiveMaxWorkers (maxWorkers : Int) : Int :=
  if maxWorkers < 1 then 1 else maxWorkers

/-- `New` from workerpool.go: the façade flags of a freshly started pool
(the arbiter itself starts in `initState`). -/
def New (maxWorkers : Int) : PoolState :=
  { maxWorkers := effectiveMaxWorkers maxWorkers, isStopped := false,
    waitAll := false, stopOnceDone := false, stopSignalClosed := false,
    taskChanClosed := false }

/-- `stop` from workerpool.go: under `stopOnce`, close `stopSignal`, set
`isStopped` and `waitAll` under `stopMutex`, and close `taskChan`; later
calls are no-ops (then both wait on `stoppedChan`). -/
def stop (wait : Bool) (p : PoolState) : PoolState :=
  if p.stopOnceDone then p
  else { p with stopOnceDone := true, stopSignalClosed := true,
                isStopped := true, waitAll := wait, taskChanClosed := true }

/-- `Stop` from workerpool.go. -/
def Stop (p : PoolState) : PoolState := stop false p

/-- `StopWait` from workerpool.go. -/
def StopWait (p : PoolState) : PoolState := stop true p

/-- `Stopped` from workerpool.go. -/
def Stopped (p : PoolState) : Bool := p.isStopped

/-- `WaitingQueueSize` from workerpool.go: `int(p.waitingCount.Load())`,
which widens the stored `int32` without changing its value. -/
def WaitingQueueSize (s : DispatchState) : Int := s.waitingCount

/-- What a `Pause` call does before blocking: on a stopped pool nothing at
all, otherwise it submits one blocking placeholder task per worker slot. -/
inductive PauseEffect where
  | noEffect
  | placeholders (n : Nat)
  deriving Repr, DecidableEq

/-- `Pause` from workerpool.go, up to its blocking phases: the early return
under `stopMutex` when the pool is already stopped (no placeholder is
submitted and no state is touched), else `maxWorkers` placeholders. -/
def Pause (p : PoolState) : PauseEffect :=
  if p.isStopped then PauseEffect.noEffect
  else PauseEffect.placeholders p.maxWorkers.toNat

end OpWorkerPool

section Claims

open OpDeque OpWorkerPool

theorem effectiveMaxWorkers_pos (maxWorkers : Int) :
    1 ≤ effectiveMaxWorkers maxWorkers := by
  rw [effectiveMaxWorkers]
  split <;> omega

/-- A sample schedule for witnesses: a pool of effective size 1 receives
task 5 (spawning the single unit), task 6 (queued, the unit being busy),
then observes `taskChan` closed while the backlog is non-empty. -/
def sampleEvs : List Ev := [Ev.arrive 5 false, Ev.arrive 6 false, Ev.wqClosed]

/-- The dispatch-loop state at loop exit under `sampleEvs`. -/
def sampleExit : DispatchState :=
  match runLoop (effectiveMaxWorkers 1) initState sampleEvs with
  | some (StepRes.exit s) => s
  | _ => initState

/-- C1: For every pool created by `New` (effective maximum
`max(maxWorkers, 1)`), the arbiter-private worker count satisfies
`0 ≤ workerCount ≤ maxWorkers` before and after every iteration of the
dispatch loop (i.e. in every state reachable by `runLoop`): `handleTask`
spawns a unit only when `workerCount < maxWorkers`, and the idle-timeout
branch decrements only when `workerCount > 0` and the non-blocking
sentinel offer succeeded. -/
theorem wp_worker_count_bounds (maxWorkers : Int) (evs : List Ev)
    (r : StepRes)
    (h : runLoop (effectiveMaxWorkers maxWorkers) initState evs = some r) :
    0 ≤ r.state.workerCount ∧
    r.state.workerCount ≤ effectiveMaxWorkers maxWorkers := by
  obtain ⟨⟨h1, h2, -, -, -⟩, -⟩ := runLoop_inv _ _ _ _
    (initState_inv _ (effectiveMaxWorkers_pos maxWorkers)) h
  exact ⟨h1, h2⟩

theorem wp_worker_count_bounds_witness :
    0 ≤ sampleExit.workerCount ∧
    sampleExit.workerCount ≤ effectiveMaxWorkers 1 :=
  wp_worker_count_bounds 1 sampleEvs (StepRes.exit sampleExit) rfl

/-- C5: The backlog grows only when `workerCount = maxWorkers` (a push
happens in `handleTask` only under saturation), and although
`processWaitingQueue` pushes without checking `workerCount`, it only runs
when the queue is already non-empty — so in every reachable dispatch-loop
state, a non-empty waiting queue implies `workerCount = maxWorkers`. -/
theorem wp_backlog_only_when_saturated (maxWorkers : Int) (evs : List Ev)
    (r : StepRes)
    (h : runLoop (effectiveMaxWorkers maxWorkers) initState evs = some r)
    (hq : r.state.waitingQueue.Size ≠ 0) :
    r.state.workerCount = effectiveMaxWorkers maxWorkers := by
  obtain ⟨⟨-, -, h3, -, -⟩, -⟩ := runLoop_inv _ _ _ _
    (initState_inv _ (effectiveMaxWorkers_pos maxWorkers)) h
  exact h3 (by omega)

theorem wp_backlog_only_when_saturated_witness :
    sampleExit.waitingQueue.Size ≠ 0 ∧
    sampleExit.workerCount = effectiveMaxWorkers 1 :=
  ⟨by decide,
    wp_backlog_only_when_saturated 1 sampleEvs (StepRes.exit sampleExit) rfl
      (by decide)⟩

/-- C2: Exactly-once execution.  For any complete dispatch-loop run, the
multiset of tasks in the final dispatch log — plus, in non-draining mode,
the tasks still sitting in the abandoned backlog — is exactly the multiset
of accepted tasks: an accepted task is handed to `workerChan` exactly once,
except that with non-draining `Stop` a task still queued at loop exit is
discarded and never handed over.  Each handoff is consumed by exactly one
execution unit, and the `worker` loop runs every task it receives before
the sentinel exactly once (second conjunct). -/
theorem wp_exactly_once (maxWorkers : Int) (evs : List Ev)
    (sExit : DispatchState) (waitAll : Bool) (id : Task)
    (h : runLoop (effectiveMaxWorkers maxWorkers) initState evs
      = some (StepRes.exit sExit)) :
    ((tasksOf (finishDispatch waitAll sExit).dispatched).count id
      + (if waitAll then 0 else (sExit.waitingQueue.toList).count id)
      = (acceptedTasks evs).count id) ∧
    (∀ (ts : List Task) (rest : List (Option Task)),
      workerExecuted (ts.map some ++ none :: rest) = ts) := by
  obtain ⟨⟨-, -, -, hwf, -⟩, hcount⟩ := runLoop_inv _ _ _ _
    (initState_inv _ (effectiveMaxWorkers_pos maxWorkers)) h
  have hc : (tasksOf sExit.dispatched).count id
      + (sExit.waitingQueue.toList).count id
      = (acceptedTasks evs).count id := by
    have hx := hcount id
    simpa [StepRes.state, initState, tasksOf, Deque.toList_zero] using hx
  refine ⟨?_, fun ts rest => workerExecuted_spec ts rest⟩
  cases waitAll with
  | true =>
    obtain ⟨r1, r2, r3, r4, r5⟩ := runQueuedTasks_spec sExit hwf
    obtain ⟨f1, -, -, -, -⟩ := sentinelFlush_spec (runQueuedTasks sExit)
    have hfd : finishDispatch true sExit
        = sentinelFlush (runQueuedTasks sExit) := rfl
    rw [hfd, f1, r1, r3, tasksOf_append, tasksOf_append, tasksOf_map_some,
      tasksOf_replicate_none, List.append_nil, List.count_append]
    simp only [if_true]
    omega
  | false =>
    obtain ⟨f1, -, -, -, -⟩ := sentinelFlush_spec sExit
    have hfd : finishDispatch false sExit = sentinelFlush sExit := rfl
    rw [hfd, f1, tasksOf_append, tasksOf_replicate_none, List.append_nil]
    simp only [Bool.false_eq_true, if_false]
    omega

theorem wp_exactly_once_witness :
    (tasksOf (finishDispatch false sampleExit).dispatched).count 6
      + (if false then 0 else (sampleExit.waitingQueue.toList).count 6)
      = (acceptedTasks sampleEvs).count 6 :=
  (wp_exactly_once 1 sampleEvs sampleExit false 6 rfl).1

/-- C4: In drain-all mode (`StopWait`), after the dispatch loop exits the
arbiter first dispatches every remaining backlog entry, one at a time in
FIFO order, then sends the `nil` sentinel exactly `workerCount` times;
afterwards the backlog is empty and the worker count is zero (all units
told to exit; `dispatch` then waits on the `WaitGroup` before closing
`stoppedChan`, on which `StopWait` blocks). -/
theorem wp_stopwait_drains (maxWorkers : Int) (evs : List Ev)
    (sExit : DispatchState)
    (h : runLoop (effectiveMaxWorkers maxWorkers) initState evs
      = some (StepRes.exit sExit)) :
    (finishDispatch true sExit).dispatched
      = sExit.dispatched ++ (sExit.waitingQueue.toList).map some
        ++ List.replicate sExit.workerCount.toNat none ∧
    (finishDispatch true sExit).waitingQueue.Size = 0 ∧
    (finishDispatch true sExit).workerCount = 0 := by
  obtain ⟨⟨h1, -, -, hwf, -⟩, -⟩ := runLoop_inv _ _ _ _
    (initState_inv _ (effectiveMaxWorkers_pos maxWorkers)) h
  obtain ⟨r1, r2, r3, r4, r5⟩ := runQueuedTasks_spec sExit hwf
  obtain ⟨f1, f2, f3, f4, f5⟩ := sentinelFlush_spec (runQueuedTasks sExit)
  have hfd : finishDispatch true sExit
      = sentinelFlush (runQueuedTasks sExit) := rfl
  refine ⟨?_, ?_, ?_⟩
  · rw [hfd, f1, r1, r3, List.append_assoc]
  · rw [hfd]
    show (sentinelFlush (runQueuedTasks sExit)).waitingQueue.Size = 0
    rw [f3]
    exact r2
  · have h1c : (0:Int) ≤ sExit.workerCount := h1
    rw [hfd, f2, r3]
    split <;> omega

theorem wp_stopwait_drains_witness :
    (finishDispatch true sampleExit).dispatched
      = sampleExit.dispatched ++ (sampleExit.waitingQueue.toList).map some
        ++ List.replicate sampleExit.workerCount.toNat none ∧
    (finishDispatch true sampleExit).waitingQueue.Size = 0 ∧
    (finishDispatch true sampleExit).workerCount = 0 :=
  wp_stopwait_drains 1 sampleEvs sampleExit rfl

/-- C10: Non-draining `Stop` never resets the published backlog counter:
the abandon-queued shutdown path (no `runQueuedTasks`, only the sentinel
flush) leaves `waitingCount` — and hence `WaitingQueueSize()` — exactly as
at loop exit, where it equals the (int32-narrowed) number of the now
discarded queued tasks; the discarded tasks themselves also stay in the
queue untouched. -/
theorem wp_stop_keeps_waiting_count (maxWorkers : Int) (evs : List Ev)
    (sExit : DispatchState)
    (h : runLoop (effectiveMaxWorkers maxWorkers) initState evs
      = some (StepRes.exit sExit)) :
    WaitingQueueSize (finishDispatch false sExit) = WaitingQueueSize sExit ∧
    WaitingQueueSize sExit = int32 sExit.waitingQueue.Size ∧
    (finishDispatch false sExit).waitingQueue.toList
      = sExit.waitingQueue.toList := by
  obtain ⟨⟨-, -, -, -, h5⟩, -⟩ := runLoop_inv _ _ _ _
    (initState_inv _ (effectiveMaxWorkers_pos maxWorkers)) h
  obtain ⟨-, -, f3, f4, -⟩ := sentinelFlush_spec sExit
  have hfd : finishDispatch false sExit = sentinelFlush sExit := rfl
  exact ⟨by rw [hfd]; exact f4, h5, by rw [hfd, f3]⟩

theorem wp_stop_keeps_waiting_count_witness :
    WaitingQueueSize (finishDispatch false sampleExit)
      = WaitingQueueSize sampleExit ∧
    WaitingQueueSize sampleExit = int32 sampleExit.waitingQueue.Size ∧
    (finishDispatch false sampleExit).waitingQueue.toList
      = sampleExit.waitingQueue.toList :=
  wp_stop_keeps_waiting_count 1 sampleEvs sampleExit rfl

/-- C7: When the idle timer fires (and the waiting queue is empty, so the
branch is reachable), the arbiter reclaims at most one unit per firing: the
loop continues, `idle` is set, the queue is untouched, and the worker count
drops by exactly one — with a sentinel handoff appended to the log — iff
the previous iteration was also idle (`idle` already set), `workerCount > 0`
and the non-blocking offer of `killIdleWorker` succeeded; otherwise nothing
changes. -/
theorem wp_idle_reclaim (maxWorkers : Int) (s : DispatchState)
    (offerOk : Bool) (r : StepRes)
    (h : dispatchStep maxWorkers s (Ev.timeout offerOk) = some r) :
    (∃ s', r = StepRes.cont s') ∧
    r.state.idle = true ∧
    r.state.waitingQueue = s.waitingQueue ∧
    (if s.idle = true ∧ 0 < s.workerCount ∧ killIdleWorker offerOk = true
     then r.state.workerCount = s.workerCount - 1 ∧
          r.state.dispatched = s.dispatched ++ [none]
     else r.state.workerCount = s.workerCount ∧
          r.state.dispatched = s.dispatched) := by
  rw [dispatchStep] at h
  split at h
  case isFalse => exact absurd h (by simp)
  case isTrue hguard =>
  split at h
  case isTrue hidle =>
    split at h
    case isTrue hok =>
      simp only [Option.some.injEq] at h
      subst h
      refine ⟨⟨_, rfl⟩, rfl, rfl, ?_⟩
      rw [if_pos ⟨hidle.1, hidle.2, hok⟩]
      exact ⟨rfl, rfl⟩
    case isFalse hok =>
      simp only [Option.some.injEq] at h
      subst h
      refine ⟨⟨_, rfl⟩, rfl, rfl, ?_⟩
      rw [if_neg (fun hx => hok hx.2.2)]
      exact ⟨rfl, rfl⟩
  case isFalse hidle =>
    simp only [Option.some.injEq] at h
    subst h
    refine ⟨⟨_, rfl⟩, rfl, rfl, ?_⟩
    rw [if_neg (fun hx => hidle ⟨hx.1, hx.2.1⟩)]
    exact ⟨rfl, rfl⟩

/-- Concrete timeout firing for the C7 witness: one busy unit, idle flag
already set, offer succeeds. -/
def c7State : DispatchState := ⟨1, true, Deque.zero, 0, []⟩

theorem wp_idle_reclaim_witness :
    (∃ s', StepRes.cont (⟨0, true, Deque.zero, 0, [none]⟩ : DispatchState)
      = StepRes.cont s') ∧
    (StepRes.cont (⟨0, true, Deque.zero, 0, [none]⟩ : DispatchState)).state.idle
      = true ∧
    (StepRes.cont (⟨0, true, Deque.zero, 0, [none]⟩ :
      DispatchState)).state.waitingQueue = c7State.waitingQueue ∧
    (if c7State.idle = true ∧ 0 < c7State.workerCount ∧
        killIdleWorker true = true
     then (StepRes.cont (⟨0, true, Deque.zero, 0, [none]⟩ :
            DispatchState)).state.workerCount = c7State.workerCount - 1 ∧
          (StepRes.cont (⟨0, true, Deque.zero, 0, [none]⟩ :
            DispatchState)).state.dispatched = c7State.dispatched ++ [none]
     else (StepRes.cont (⟨0, true, Deque.zero, 0, [none]⟩ :
            DispatchState)).state.workerCount = c7State.workerCount ∧
          (StepRes.cont (⟨0, true, Deque.zero, 0, [none]⟩ :
            DispatchState)).state.dispatched = c7State.dispatched) :=
  wp_idle_reclaim 1 c7State true
    (StepRes.cont (⟨0, true, Deque.zero, 0, [none]⟩ : DispatchState)) rfl

/-- C3: For every non-nil task, calling `Submit` after `Stop` or `StopWait`
has begun stopping the pool fails fatally: `stop` closes `taskChan`, so the
send in `Submit` is a send on a closed channel — a deterministic runtime
panic (the PoolClosed condition) — and in particular the task is never
silently dropped as a no-op. -/
theorem wp_submit_after_stop_panics (maxWorkers : Int) (t : Task) :
    Submit ((Stop (New maxWorkers)).taskChanClosed) (some t)
      = SubmitResult.panicked ∧
    Submit ((StopWait (New maxWorkers)).taskChanClosed) (some t)
      = SubmitResult.panicked ∧
    Submit ((Stop (New maxWorkers)).taskChanClosed) (some t)
      ≠ SubmitResult.noop := by
  have h1 : (Stop (New maxWorkers)).taskChanClosed = true := rfl
  have h2 : (StopWait (New maxWorkers)).taskChanClosed = true := rfl
  rw [h1, h2]
  exact ⟨rfl, rfl, by simp [Submit]⟩

/-- C8: For both task-accepting entry points, a nil task is a no-op and not
an error: nothing is sent to the arbiter and nothing panics, in every
channel state — including after the pool has stopped (`taskChanClosed`
arbitrary), where a non-nil submit would panic. -/
theorem wp_nil_task_noop (taskChanClosed : Bool) :
    Submit taskChanClosed none = SubmitResult.noop ∧
    SubmitWait taskChanClosed none = SubmitResult.noop :=
  ⟨rfl, rfl⟩

/-- C9: `Pause` on a pool whose `stopped` flag is already set returns
immediately without effect: no placeholder task is submitted and no state
changes. -/
theorem wp_pause_stopped_noop (p : PoolState) (h : p.isStopped = true) :
    Pause p = PauseEffect.noEffect := by
  rw [Pause, if_pos h]

theorem wp_pause_stopped_noop_witness :
    (Stop (New 3)).isStopped = true ∧
    Pause (Stop (New 3)) = PauseEffect.noEffect :=
  ⟨rfl, wp_pause_stopped_noop (Stop (New 3)) rfl⟩

/-- C6: Restricted to the backlog contract (`PushBack`, `Front`,
`PopFront`, `Size`), the ring-buffer deque is observationally equivalent to
a plain list-based FIFO queue: from either `New` or the zero value (as the
pool's field is used), every operation sequence produces the identical
output trace — so `PopFront` returns elements in exactly `PushBack` order,
`Front` the oldest un-popped element, and `Size` the current count, i.e.
backlogged tasks are served FIFO. -/
theorem deque_backlog_fifo {T : Type} [Inhabited T]
    (ops : List (QueueOp T)) :
    (Deque.new (T := T)).runOps ops = listRunOps [] ops ∧
    (Deque.zero (T := T)).runOps ops = listRunOps [] ops :=
  ⟨Deque.runOps_sim _ _ Deque.wf_new rfl ops,
   Deque.runOps_sim _ _ Deque.wf_zero rfl ops⟩

end Claims
